import Mathlib

/-!
Verification development for the Drive sync worker (src/worker).

Text is modelled as a list of characters.  The functions below are shallow
embeddings of the Python source:

* `split_paragraphs`   embeds `text_processing._split_paragraphs`
* `chunk_text`         embeds `text_processing.chunk_text`
* `embed_chunks`       embeds `text_processing.embed_chunks`
* `bootstrap_folder`   embeds `Processor.bootstrap_folder`
* `handle_change`      embeds `Processor.handle_change`
* `process_file_content` embeds `Processor._process_file_content`
* `update_chunks`      embeds `SupabaseClient.update_chunks`
* `webhookLoop`        embeds the change loop of `app.drive_webhook`
* `normalise_timestamp` embeds `processing._normalise_timestamp`
-/

/-- Python whitespace (the characters `str.strip` and `str.split` treat as
whitespace in the ASCII range). -/
def isPySpace (c : Char) : Bool :=
  c = ' ' || c = '\t' || c = '\n' || c = '\r' || c = '\x0b' || c = '\x0c'

/-- Left strip, as in Python `str.lstrip`. -/
def stripL (s : List Char) : List Char := s.dropWhile isPySpace

/-- Right strip, as in Python `str.rstrip`. -/
def stripR (s : List Char) : List Char := ((s.reverse).dropWhile isPySpace).reverse

/-- Python `str.strip`. -/
def pyStrip (s : List Char) : List Char := stripR (stripL s)

/-- Prepend an element onto the first block of a block list (helper shared by
the splitting functions; mirrors building the current piece while scanning). -/
def consHead {α : Type} (a : α) : List (List α) → List (List α)
  | [] => [[a]]
  | p :: ps => (a :: p) :: ps

/-- Python `text.split("\n\n")`: split at each (leftmost, non-overlapping)
occurrence of two consecutive newline characters. -/
def splitNN : List Char → List (List Char)
  | [] => [[]]
  | [c] => [[c]]
  | c :: d :: rest =>
    if c = '\n' && d = '\n' then [] :: splitNN rest
    else consHead c (splitNN (d :: rest))

/-- Python `text.split("\n")`. -/
def splitNL : List Char → List (List Char)
  | [] => [[]]
  | c :: rest => if c = '\n' then [] :: splitNL rest else consHead c (splitNL rest)

/-- Join a list of lines with a single newline (inverse of `splitNL`). -/
def joinNL : List (List Char) → List Char
  | [] => []
  | [l] => l
  | l :: ls => l ++ '\n' :: joinNL ls

/-- Python `"\n\n".join(blocks)`, used by `chunk_text` when closing a chunk. -/
def joinNN : List (List Char) → List Char
  | [] => []
  | [l] => l
  | l :: ls => l ++ '\n' :: '\n' :: joinNN ls

/-- Embeds `text_processing._split_paragraphs`:
`[p.strip() for p in text.split("\n\n") if p.strip()]`. -/
def split_paragraphs (s : List Char) : List (List Char) :=
  ((splitNN s).map pyStrip).filter (fun p => !p.isEmpty)

/-- Group a list of lines into maximal runs of non-blank lines, where `blank`
decides which lines are paragraph boundaries.  Blank lines are dropped; runs
between consecutive blank lines are empty blocks. -/
def runsSplitBy (blank : List Char → Bool) : List (List Char) → List (List (List Char))
  | [] => [[]]
  | l :: ls => if blank l then [] :: runsSplitBy blank ls else consHead l (runsSplitBy blank ls)

/-- The claim's paragraph splitter, taken from the spec's words: a paragraph is
a maximal run of non-blank text separated by one or more fully blank lines,
where a line counts as blank when it contains only whitespace (including the
empty line); each paragraph is trimmed and empty paragraphs are dropped. -/
def claimBlankSplit (s : List Char) : List (List Char) :=
  (((runsSplitBy (fun l => l.all isPySpace) (splitNL s)).map joinNL).map pyStrip).filter
    (fun p => !p.isEmpty)

/-- The amended paragraph splitter: identical to the claim's wording except
that only completely empty lines are paragraph boundaries (a line containing
only non-newline whitespace does not separate paragraphs). -/
def spec_split_paragraphs (s : List Char) : List (List Char) :=
  (((runsSplitBy (fun l => l.isEmpty) (splitNL s)).map joinNL).map pyStrip).filter
    (fun p => !p.isEmpty)

/-- Does the text contain two consecutive newline characters? -/
def hasNN : List Char → Bool
  | [] => false
  | [_] => false
  | c :: d :: rest => (c = '\n' && d = '\n') || hasNN (d :: rest)

/-- Split a text at the leftmost occurrence of two consecutive newlines,
returning the part before and the part after, if any occurrence exists. -/
def breakNN : List Char → Option (List Char × List Char)
  | [] => none
  | [_] => none
  | c :: d :: rest =>
    if c = '\n' && d = '\n' then some ([], rest)
    else
      match breakNN (d :: rest) with
      | some (a, b) => some (c :: a, b)
      | none => none

/-- Number of whitespace-delimited words, as in Python `len(s.split())`.
The Boolean argument records whether the scan is currently inside a word. -/
def countWordsAux : List Char → Bool → Nat
  | [], _ => 0
  | c :: t, inw =>
    if isPySpace c then countWordsAux t false
    else (if inw then 0 else 1) + countWordsAux t true

/-- Python `len(s.split())`: the number of maximal runs of non-whitespace. -/
def countWords (s : List Char) : Nat := countWordsAux s false

example : split_paragraphs "a\n\nb".toList = ["a".toList, "b".toList] := by decide
example : split_paragraphs "a\n \nb".toList = ["a\n \nb".toList] := by decide
example : claimBlankSplit "a\n \nb".toList = ["a".toList, "b".toList] := by decide
example : spec_split_paragraphs "a\n \nb".toList = ["a\n \nb".toList] := by decide
example : spec_split_paragraphs "a\n\n\nb".toList = ["a".toList, "b".toList] := by decide
example : split_paragraphs "a\n\n\nb".toList = ["a".toList, "b".toList] := by decide
example : countWords "  hello   world ".toList = 2 := by decide

/-- Embeds the `Chunk` dataclass of `text_processing.py`.  `as_payload`
serialises exactly these five fields, so the same structure doubles as the
chunk payload sent to the persistence layer. -/
structure Chunk where
  file_id : String
  chunk_index : Nat
  content : List Char
  tokens : Option Nat
  embedding : Option (List Float)

/-- Embeds the overlap-seeding loop of `chunk_text` (lines 54-63): walk
backwards through the just-closed buffer (given here already reversed),
taking whole paragraphs until their accumulated word count reaches the
overlap budget; returns the kept paragraphs in original order together with
their accumulated word count. -/
def takeOverlap : List (List Char) → Nat → List (List Char) × Nat
  | [], _ => ([], 0)
  | p :: rest, overlap =>
    let t := countWords p
    if overlap ≤ t then ([p], t)
    else
      let r := takeOverlap rest (overlap - t)
      (r.1 ++ [p], r.2 + t)

/-- State of the `chunk_text` loop: emitted chunks, the current buffer of
paragraphs, its running token count, and the next chunk index. -/
structure CState where
  chunks : List Chunk
  current : List (List Char)
  token_count : Nat
  chunk_index : Nat

/-- One iteration of the `for paragraph in paragraphs` loop of `chunk_text`. -/
def chunkStep (file_id : String) (max_tokens overlap : Nat) (st : CState)
    (paragraph : List Char) : CState :=
  let tokens := countWords paragraph
  let st' :=
    if max_tokens < st.token_count + tokens ∧ st.current ≠ [] then
      let content := joinNN st.current
      let closed : CState :=
        { chunks := st.chunks ++ [⟨file_id, st.chunk_index, content, some st.token_count, none⟩]
          current := st.current
          token_count := st.token_count
          chunk_index := st.chunk_index + 1 }
      if 0 < overlap then
        let r := takeOverlap st.current.reverse overlap
        { closed with current := r.1, token_count := r.2 }
      else
        { closed with current := [], token_count := 0 }
    else st
  { st' with current := st'.current ++ [paragraph], token_count := st'.token_count + tokens }

/-- Embeds `text_processing.chunk_text` (the Python defaults are
`max_tokens = 800`, `overlap = 200`; callers here pass them explicitly). -/
def chunk_text (text : List Char) (file_id : String) (max_tokens overlap : Nat) : List Chunk :=
  let paragraphs := split_paragraphs text
  if paragraphs.isEmpty then []
  else
    let st := paragraphs.foldl (chunkStep file_id max_tokens overlap) ⟨[], [], 0, 0⟩
    if st.current.isEmpty then st.chunks
    else st.chunks ++ [⟨file_id, st.chunk_index, joinNN st.current, some st.token_count, none⟩]

example :
    (chunk_text "one two\n\nthree".toList "f" 2 0).map (fun c => c.content) =
      ["one two".toList, "three".toList] := by decide
example :
    (chunk_text "one two\n\nthree".toList "f" 800 200).map (fun c => c.content) =
      ["one two\n\nthree".toList] := by decide
example :
    (chunk_text "a b\n\nc d\n\ne f".toList "f" 3 2).map (fun c => c.content) =
      ["a b".toList, "a b\n\nc d".toList, "c d\n\ne f".toList] := by decide
example : (chunk_text "a b\n\nc d\n\ne f".toList "f" 3 2).map (fun c => c.tokens) =
      [some 2, some 4, some 4] := by decide

theorem consHead_ne_nil {α : Type} (a : α) (ls : List (List α)) : consHead a ls ≠ [] := by
  cases ls <;> simp [consHead]

theorem consHead_append {α : Type} (a : α) (xs ys : List (List α)) (h : xs ≠ []) :
    consHead a (xs ++ ys) = consHead a xs ++ ys := by
  cases xs with
  | nil => exact absurd rfl h
  | cons p ps => simp [consHead]

theorem splitNN_ne_nil (s : List Char) : splitNN s ≠ [] := by
  match s with
  | [] => simp [splitNN]
  | [c] => simp [splitNN]
  | c :: d :: rest =>
    rw [splitNN]
    split
    · simp
    · exact consHead_ne_nil _ _

theorem splitNL_ne_nil (s : List Char) : splitNL s ≠ [] := by
  match s with
  | [] => simp [splitNL]
  | c :: rest =>
    rw [splitNL]
    split
    · simp
    · exact consHead_ne_nil _ _

theorem runsSplitBy_ne_nil (blank : List Char → Bool) (ls : List (List Char)) :
    runsSplitBy blank ls ≠ [] := by
  match ls with
  | [] => simp [runsSplitBy]
  | l :: ls =>
    rw [runsSplitBy]
    split
    · simp
    · exact consHead_ne_nil _ _

theorem stripL_cons_space {c : Char} (x : List Char) (h : isPySpace c = true) :
    stripL (c :: x) = stripL x := by
  simp [stripL, List.dropWhile_cons, h]

theorem stripL_cons_nonspace {c : Char} (x : List Char) (h : isPySpace c = false) :
    stripL (c :: x) = c :: x := by
  simp [stripL, List.dropWhile_cons, h]

theorem stripR_append_space {c : Char} (x : List Char) (h : isPySpace c = true) :
    stripR (x ++ [c]) = stripR x := by
  simp [stripR, List.dropWhile_cons, h]

theorem pyStrip_cons_space {c : Char} (x : List Char) (h : isPySpace c = true) :
    pyStrip (c :: x) = pyStrip x := by
  simp [pyStrip, stripL_cons_space x h]

theorem stripL_append (x y : List Char) :
    stripL (x ++ y) = if stripL x = [] then stripL y else stripL x ++ y := by
  simp only [stripL]
  induction x with
  | nil => simp
  | cons c x ih =>
    by_cases hc : isPySpace c = true
    · simpa [List.dropWhile_cons, hc] using ih
    · simp [List.dropWhile_cons, hc]

theorem pyStrip_append_space {c : Char} (x : List Char) (h : isPySpace c = true) :
    pyStrip (x ++ [c]) = pyStrip x := by
  rw [pyStrip, stripL_append]
  split
  · rename_i h0
    rw [pyStrip, h0]
    simp [stripL, List.dropWhile_cons, h, stripR]
  · rw [stripR_append_space _ h, pyStrip]

theorem hasNN_cons (c : Char) (t : List Char) :
    hasNN (c :: t) = ((c = '\n' && t.head? = some '\n') || hasNN t) := by
  cases t with
  | nil => simp [hasNN]
  | cons d r => simp [hasNN]

theorem hasNN_tail {c : Char} {t : List Char} (h : hasNN (c :: t) = false) :
    hasNN t = false := by
  rw [hasNN_cons] at h
  exact (Bool.or_eq_false_iff.mp h).2

theorem hasNN_append_right {a b : List Char} (h : hasNN (a ++ b) = false) :
    hasNN b = false := by
  induction a with
  | nil => exact h
  | cons c a ih => exact ih (hasNN_tail h)

theorem hasNN_append_left {a b : List Char} (h : hasNN (a ++ b) = false) :
    hasNN a = false := by
  induction a with
  | nil => simp [hasNN]
  | cons c a ih =>
    rw [List.cons_append, hasNN_cons] at h
    rcases Bool.or_eq_false_iff.mp h with ⟨h1, h2⟩
    rw [hasNN_cons, ih h2, Bool.or_false]
    cases a with
    | nil => simp
    | cons d r => simpa using h1

theorem breakNN_eq_none {s : List Char} (h : breakNN s = none) : hasNN s = false := by
  induction s using breakNN.induct with
  | case1 => simp [hasNN]
  | case2 => simp [hasNN]
  | case3 c d rest hc => simp [breakNN, hc] at h
  | case4 c d rest hc a b hab ih => simp [breakNN, hc, hab] at h
  | case5 c d rest hc hab ih =>
    rw [hasNN]
    simp only [Bool.or_eq_false_iff]
    exact ⟨by simpa using hc, ih hab⟩

theorem breakNN_eq_some {s pre post : List Char} (h : breakNN s = some (pre, post)) :
    s = pre ++ '\n' :: '\n' :: post ∧ hasNN (pre ++ ['\n']) = false := by
  induction s using breakNN.induct generalizing pre post with
  | case1 => simp [breakNN] at h
  | case2 => simp [breakNN] at h
  | case3 c d rest hc =>
    rw [breakNN, if_pos hc] at h
    obtain ⟨rfl, rfl⟩ : ([] : List Char) = pre ∧ rest = post := by simpa using h
    obtain ⟨hcn, hdn⟩ : c = '\n' ∧ d = '\n' := by simpa using hc
    subst hcn; subst hdn
    exact ⟨rfl, by simp [hasNN]⟩
  | case4 c d rest hc a b hab ih =>
    rw [breakNN, if_neg hc, hab] at h
    obtain ⟨rfl, rfl⟩ : c :: a = pre ∧ b = post := by simpa using h
    obtain ⟨ha, hn⟩ := ih hab
    refine ⟨by simp [ha], ?_⟩
    rw [List.cons_append, hasNN_cons, hn, Bool.or_false]
    cases a with
    | nil =>
      obtain ⟨hd, -⟩ : d = '\n' ∧ rest = '\n' :: b := by simpa using ha
      subst hd
      simpa using hc
    | cons e r =>
      obtain ⟨hd, -⟩ : d = e ∧ rest = r ++ '\n' :: '\n' :: b := by simpa using ha
      subst hd
      simpa using hc
  | case5 c d rest hc hab ih => rw [breakNN, if_neg hc, hab] at h; cases h

theorem splitNN_no_sep {s : List Char} (h : hasNN s = false) : splitNN s = [s] := by
  induction s using splitNN.induct with
  | case1 => rfl
  | case2 c => rfl
  | case3 c d rest hc => rw [hasNN, hc] at h; simp at h
  | case4 c d rest hc ih =>
    rw [splitNN, if_neg hc, ih (hasNN_tail h), consHead]

theorem splitNN_sep_decomp {pre : List Char} (post : List Char)
    (h : hasNN (pre ++ ['\n']) = false) :
    splitNN (pre ++ '\n' :: '\n' :: post) = pre :: splitNN post := by
  induction pre with
  | nil => rw [List.nil_append, splitNN, if_pos (by simp)]
  | cons c pre' ih =>
    cases pre' with
    | nil =>
      have hc : c ≠ '\n' := by
        rw [List.cons_append, List.nil_append, hasNN] at h
        simp at h
        exact h.1
      rw [List.cons_append, List.nil_append, splitNN, if_neg (by simpa using hc),
        splitNN, if_pos (by simp), consHead]
    | cons e pre'' =>
      have hce : (c = '\n' && e = '\n') = false := by
        rw [List.cons_append, hasNN_cons] at h
        rcases Bool.or_eq_false_iff.mp h with ⟨h1, -⟩
        simpa using h1
      have htail : hasNN ((e :: pre'') ++ ['\n']) = false := by
        rw [List.cons_append, hasNN_cons] at h
        exact (Bool.or_eq_false_iff.mp h).2
      rw [List.cons_append, List.cons_append, splitNN, if_neg (by simp_all),
        ← List.cons_append, ih htail, consHead]

theorem splitNN_noNN_fuel :
    ∀ (n : Nat) (s : List Char), s.length ≤ n → ∀ p ∈ splitNN s, hasNN p = false := by
  intro n
  induction n with
  | zero =>
    intro s hs p hp
    have : s = [] := List.length_eq_zero.mp (Nat.le_zero.mp hs)
    subst this
    simp [splitNN] at hp
    simp [hp, hasNN]
  | succ n ih =>
    intro s hs p hp
    cases hb : breakNN s with
    | none =>
      rw [splitNN_no_sep (breakNN_eq_none hb)] at hp
      simp at hp
      simp [hp, breakNN_eq_none hb]
    | some ab =>
      obtain ⟨pre, post⟩ := ab
      obtain ⟨heq, hn⟩ := breakNN_eq_some hb
      rw [heq, splitNN_sep_decomp post hn] at hp
      rcases List.mem_cons.mp hp with rfl | hp'
      · exact hasNN_append_left hn
      · refine ih post ?_ p hp'
        have : s.length = pre.length + 2 + post.length := by simp [heq]; omega
        omega

theorem splitNN_noNN {s : List Char} : ∀ p ∈ splitNN s, hasNN p = false :=
  splitNN_noNN_fuel s.length s (Nat.le_refl _)

theorem mem_consHead {α : Type} {a : α} {x : List α} {ls : List (List α)}
    (h : x ∈ consHead a ls) :
    (ls = [] ∧ x = [a]) ∨ ∃ p ps, ls = p :: ps ∧ (x = a :: p ∨ x ∈ ps) := by
  cases ls with
  | nil =>
    simp [consHead] at h
    exact Or.inl ⟨rfl, h⟩
  | cons p ps =>
    simp [consHead] at h
    exact Or.inr ⟨p, ps, rfl, h⟩

theorem splitNL_append_nl (a b : List Char) :
    splitNL (a ++ '\n' :: b) = splitNL a ++ splitNL b := by
  induction a with
  | nil => simp [splitNL]
  | cons c a ih =>
    by_cases hc : c = '\n'
    · subst hc
      rw [List.cons_append, splitNL, if_pos rfl, splitNL, if_pos rfl, ih, List.cons_append]
    · rw [List.cons_append, splitNL, if_neg hc, splitNL, if_neg hc, ih,
        consHead_append c _ _ (splitNL_ne_nil a)]

theorem joinNL_cons (l : List Char) (ls : List (List Char)) (h : ls ≠ []) :
    joinNL (l :: ls) = l ++ '\n' :: joinNL ls := by
  cases ls with
  | nil => exact absurd rfl h
  | cons x xs => rfl

theorem joinNL_splitNL (a : List Char) : joinNL (splitNL a) = a := by
  induction a with
  | nil => rfl
  | cons c a ih =>
    by_cases hc : c = '\n'
    · subst hc
      rw [splitNL, if_pos rfl, joinNL_cons _ _ (splitNL_ne_nil a), ih, List.nil_append]
    · rw [splitNL, if_neg hc]
      cases hsp : splitNL a with
      | nil => exact absurd hsp (splitNL_ne_nil a)
      | cons l ls =>
        rw [hsp] at ih
        cases ls with
        | nil =>
          simp [joinNL] at ih
          simp [consHead, joinNL, ih]
        | cons x xs =>
          rw [consHead, joinNL_cons (c :: l) (x :: xs) (by simp), List.cons_append]
          rw [joinNL_cons l (x :: xs) (by simp)] at ih
          rw [ih]

theorem splitNL_lines_ne_nil_fuel :
    ∀ (n : Nat) (a : List Char), a.length ≤ n → a ≠ [] → a.head? ≠ some '\n' →
      hasNN (a ++ ['\n']) = false → ∀ l ∈ splitNL a, l ≠ [] := by
  intro n
  induction n with
  | zero =>
    intro a ha hne _ _ l hl
    exact absurd (List.length_eq_zero.mp (Nat.le_zero.mp ha)) hne
  | succ n ih =>
    intro a ha hne hhd hnn l hl
    cases a with
    | nil => exact absurd rfl hne
    | cons c t =>
      have hc : c ≠ '\n' := by simpa using hhd
      rw [splitNL, if_neg hc] at hl
      rcases mem_consHead hl with ⟨-, rfl⟩ | ⟨p, ps, hps, hlp⟩
      · simp
      · rcases hlp with rfl | hl'
        · simp
        · cases t with
          | nil =>
            rw [splitNL] at hps
            obtain ⟨-, rfl⟩ : ([] : List Char) = p ∧ ([] : List (List Char)) = ps := by
              simpa using hps
            simp at hl'
          | cons d t' =>
            by_cases hd : d = '\n'
            · subst hd
              rw [splitNL, if_pos rfl] at hps
              obtain ⟨-, hps'⟩ : ([] : List Char) = p ∧ splitNL t' = ps := by simpa using hps
              cases t' with
              | nil =>
                exfalso
                simp [hasNN] at hnn
              | cons e t'' =>
                have h2 : hasNN (('\n' :: e :: t'') ++ ['\n']) = false := hasNN_tail hnn
                have he : e ≠ '\n' := by
                  rw [List.cons_append, hasNN_cons] at h2
                  intro h
                  subst h
                  simp at h2
                refine ih (e :: t'') (by simp at ha ⊢; omega) (by simp) (by simpa using he)
                  (hasNN_tail h2) l ?_
                rw [hps']
                exact hl'
            · have hall := ih (d :: t') (by simp at ha ⊢; omega) (by simp)
                (by simpa using hd) (hasNN_tail hnn)
              refine hall l ?_
              rw [hps]
              exact List.mem_cons_of_mem p hl'

theorem splitNL_lines_ne_nil {a : List Char} (hne : a ≠ []) (hhd : a.head? ≠ some '\n')
    (hnn : hasNN (a ++ ['\n']) = false) : ∀ l ∈ splitNL a, l ≠ [] :=
  splitNL_lines_ne_nil_fuel a.length a (Nat.le_refl _) hne hhd hnn

theorem runsSplitBy_append_break (blank : List Char → Bool) (ls ys : List (List Char))
    (h0 : blank [] = true) (h : ∀ l ∈ ls, blank l = false) :
    runsSplitBy blank (ls ++ [] :: ys) = ls :: runsSplitBy blank ys := by
  induction ls with
  | nil => rw [List.nil_append, runsSplitBy, if_pos h0]
  | cons l ls ih =>
    have hl : blank l = false := h l (by simp)
    rw [List.cons_append, runsSplitBy, if_neg (by simp [hl]),
      ih (fun x hx => h x (List.mem_cons_of_mem _ hx)), consHead]

theorem runsSplitBy_all_nonblank (blank : List Char → Bool) (ls : List (List Char))
    (h : ∀ l ∈ ls, blank l = false) : runsSplitBy blank ls = [ls] := by
  induction ls with
  | nil => rfl
  | cons l ls ih =>
    have hl : blank l = false := h l (by simp)
    rw [runsSplitBy, if_neg (by simp [hl]), ih (fun x hx => h x (List.mem_cons_of_mem _ hx)),
      consHead]

/-- Strip every piece and drop the pieces that strip to nothing (the common
tail of both paragraph splitters). -/
def stripFilter (ps : List (List Char)) : List (List Char) :=
  (ps.map pyStrip).filter (fun p => !p.isEmpty)

theorem split_paragraphs_eq_stripFilter (s : List Char) :
    split_paragraphs s = stripFilter (splitNN s) := rfl

theorem spec_split_eq_stripFilter (s : List Char) :
    spec_split_paragraphs s =
      stripFilter ((runsSplitBy (fun l => l.isEmpty) (splitNL s)).map joinNL) := rfl

theorem stripFilter_cons_empty {p : List Char} (ps : List (List Char))
    (h : pyStrip p = []) : stripFilter (p :: ps) = stripFilter ps := by
  simp [stripFilter, List.filter_cons, h]

theorem stripFilter_cons_ne {p : List Char} (ps : List (List Char))
    (h : pyStrip p ≠ []) : stripFilter (p :: ps) = pyStrip p :: stripFilter ps := by
  have : (pyStrip p).isEmpty = false := by
    cases hp : pyStrip p with
    | nil => exact absurd hp h
    | cons x xs => rfl
  simp [stripFilter, List.filter_cons, this]

theorem dropWhile_concat_ne_nil {p : Char → Bool} {c : Char} (ys : List Char)
    (h : p c = false) : (ys ++ [c]).dropWhile p ≠ [] := by
  induction ys with
  | nil => simp [List.dropWhile, h]
  | cons y ys ih =>
    rw [List.cons_append, List.dropWhile_cons]
    split
    · exact ih
    · simp

theorem pyStrip_ne_nil_of_head {c : Char} (x : List Char) (h : isPySpace c = false) :
    pyStrip (c :: x) ≠ [] := by
  rw [pyStrip, stripL_cons_nonspace x h, stripR]
  intro hcon
  have := congrArg List.reverse hcon
  rw [List.reverse_reverse] at this
  have hrev : (x.reverse ++ [c]).dropWhile isPySpace = [] := by
    simpa [List.reverse_cons] using this
  exact dropWhile_concat_ne_nil x.reverse h hrev

theorem hasNN_snoc_snoc (a : List Char) (z : Char) (h : hasNN (a ++ [z]) = false)
    (hz : z ≠ '\n') : hasNN (a ++ [z, '\n']) = false := by
  induction a with
  | nil => simp [hasNN, hz]
  | cons c a ih =>
    rw [List.cons_append, hasNN_cons] at h
    rcases Bool.or_eq_false_iff.mp h with ⟨h1, h2⟩
    rw [List.cons_append, hasNN_cons, ih h2, Bool.or_false]
    cases a with
    | nil => simpa using h1
    | cons d r => simpa using h1

theorem pyStrip_nil : pyStrip [] = [] := rfl

theorem stripFilter_cons_congr {p q : List Char} (ps : List (List Char))
    (h : pyStrip p = pyStrip q) : stripFilter (p :: ps) = stripFilter (q :: ps) := by
  by_cases he : pyStrip q = []
  · rw [stripFilter_cons_empty ps (h.trans he), stripFilter_cons_empty ps he]
  · rw [stripFilter_cons_ne ps (h ▸ he), stripFilter_cons_ne ps he, h]

theorem split_paragraphs_break_some {s pre post : List Char}
    (h : breakNN s = some (pre, post)) (hne : pyStrip pre ≠ []) :
    split_paragraphs s = pyStrip pre :: split_paragraphs post := by
  obtain ⟨heq, hn⟩ := breakNN_eq_some h
  rw [split_paragraphs_eq_stripFilter, heq, splitNN_sep_decomp post hn,
    stripFilter_cons_ne _ hne, split_paragraphs_eq_stripFilter]

theorem split_paragraphs_break_none {s : List Char} (h : breakNN s = none)
    (hne : pyStrip s ≠ []) : split_paragraphs s = [pyStrip s] := by
  rw [split_paragraphs_eq_stripFilter, splitNN_no_sep (breakNN_eq_none h),
    stripFilter_cons_ne _ hne]
  rfl

theorem isEmpty_false_of_ne_nil {l : List Char} (h : l ≠ []) : l.isEmpty = false := by
  cases l with
  | nil => exact absurd rfl h
  | cons x xs => rfl

theorem spec_split_break_some {s pre post : List Char} {c : Char}
    (h : breakNN s = some (pre, post)) (hhd : s.head? = some c)
    (hc : isPySpace c = false) :
    spec_split_paragraphs s = pyStrip pre :: spec_split_paragraphs post := by
  obtain ⟨heq, hn⟩ := breakNN_eq_some h
  cases pre with
  | nil =>
    exfalso
    rw [heq] at hhd
    simp at hhd
    subst hhd
    simp [isPySpace] at hc
  | cons c0 pre0 =>
    have hc0 : c0 = c := by
      rw [heq] at hhd
      simpa using hhd
    subst hc0
    have hcn : c0 ≠ '\n' := by
      intro hx
      subst hx
      simp [isPySpace] at hc
    have hlines : ∀ l ∈ splitNL (c0 :: pre0), l ≠ [] :=
      splitNL_lines_ne_nil (by simp) (by simpa using hcn) hn
    have hsplit : splitNL ((c0 :: pre0) ++ '\n' :: '\n' :: post) =
        splitNL (c0 :: pre0) ++ ([] :: splitNL post) := by
      rw [splitNL_append_nl (c0 :: pre0) ('\n' :: post)]
      congr 1
    rw [spec_split_eq_stripFilter, heq, hsplit,
      runsSplitBy_append_break _ _ _ rfl
        (fun l hl => isEmpty_false_of_ne_nil (hlines l hl)),
      List.map_cons, joinNL_splitNL,
      stripFilter_cons_ne _ (pyStrip_ne_nil_of_head pre0 hc), spec_split_eq_stripFilter]

theorem spec_split_break_none {s : List Char} {c : Char} (h : breakNN s = none)
    (hhd : s.head? = some c) (hc : isPySpace c = false) :
    spec_split_paragraphs s = [pyStrip s] := by
  have hNN := breakNN_eq_none h
  have hcn : c ≠ '\n' := by
    intro hx
    subst hx
    simp [isPySpace] at hc
  have hsne : s ≠ [] := by
    intro hx
    subst hx
    simp at hhd
  have hshd : s.head? ≠ some '\n' := by
    rw [hhd]
    simpa using hcn
  cases hr : s.reverse with
  | nil => exact absurd (by simpa using congrArg List.reverse hr) hsne
  | cons z ysrev =>
    have hs : s = ysrev.reverse ++ [z] := by
      have := congrArg List.reverse hr
      simpa using this
    by_cases hz : z = '\n'
    · subst hz
      have hysne : ysrev.reverse ≠ [] := by
        intro hx
        rw [hx] at hs
        rw [hs] at hhd
        simp at hhd
        exact hcn hhd.symm
      have hyhd : (ysrev.reverse).head? = some c := by
        rw [hs] at hhd
        cases hyr : ysrev.reverse with
        | nil => exact absurd hyr hysne
        | cons w ws =>
          rw [hyr] at hhd
          simpa using hhd
      have hlines : ∀ l ∈ splitNL ysrev.reverse, l ≠ [] := by
        refine splitNL_lines_ne_nil hysne ?_ ?_
        · rw [hyhd]
          simpa using hcn
        · rw [← hs]
          exact hNN
      have hsplit : splitNL s = splitNL ysrev.reverse ++ ([] :: []) := by
        rw [hs, splitNL_append_nl ysrev.reverse []]
        rfl
      rw [spec_split_eq_stripFilter, hsplit,
        runsSplitBy_append_break _ _ _ rfl
          (fun l hl => isEmpty_false_of_ne_nil (hlines l hl)),
        List.map_cons, joinNL_splitNL]
      have hyne : pyStrip ysrev.reverse ≠ [] := by
        cases hyr : ysrev.reverse with
        | nil => exact absurd hyr hysne
        | cons w ws =>
          rw [hyr] at hyhd
          have : w = c := by simpa using hyhd
          subst this
          exact pyStrip_ne_nil_of_head ws hc
      rw [stripFilter_cons_ne _ hyne]
      have : pyStrip s = pyStrip ysrev.reverse := by
        rw [hs]
        exact pyStrip_append_space _ rfl
      rw [this]
      rfl
    · have hnn2 : hasNN (s ++ ['\n']) = false := by
        rw [hs, List.append_assoc]
        exact hasNN_snoc_snoc ysrev.reverse z (hs ▸ hNN) hz
      have hlines : ∀ l ∈ splitNL s, l ≠ [] := splitNL_lines_ne_nil hsne hshd hnn2
      rw [spec_split_eq_stripFilter,
        runsSplitBy_all_nonblank _ _ (fun l hl => isEmpty_false_of_ne_nil (hlines l hl)),
        List.map_singleton, joinNL_splitNL]
      have hpne : pyStrip s ≠ [] := by
        cases s with
        | nil => exact absurd rfl hsne
        | cons w ws =>
          have : w = c := by simpa using hhd
          subst this
          exact pyStrip_ne_nil_of_head ws hc
      rw [stripFilter_cons_ne _ hpne]
      rfl


theorem splitNN_cons_sep (t : List Char) : splitNN ('\n' :: '\n' :: t) = [] :: splitNN t := by
  rw [splitNN]
  simp

theorem splitNN_cons_ne {c d : Char} (t : List Char) (h : (c = '\n' && d = '\n') = false) :
    splitNN (c :: d :: t) = consHead c (splitNN (d :: t)) := by
  rw [splitNN, if_neg (by simp_all)]

theorem splitNL_cons_nl (t : List Char) : splitNL ('\n' :: t) = [] :: splitNL t := by
  rw [splitNL, if_pos rfl]

theorem splitNL_cons_ne {c : Char} (t : List Char) (h : c ≠ '\n') :
    splitNL (c :: t) = consHead c (splitNL t) := by
  rw [splitNL, if_neg h]

theorem runsSplitBy_cons_blank (blank : List Char → Bool) {l : List Char}
    (ls : List (List Char)) (h : blank l = true) :
    runsSplitBy blank (l :: ls) = [] :: runsSplitBy blank ls := by
  rw [runsSplitBy, if_pos h]

theorem runsSplitBy_cons_nonblank (blank : List Char → Bool) {l : List Char}
    (ls : List (List Char)) (h : blank l = false) :
    runsSplitBy blank (l :: ls) = consHead l (runsSplitBy blank ls) := by
  rw [runsSplitBy, if_neg (by simp [h])]

theorem joinNL_nil : joinNL [] = [] := rfl

theorem joinNL_singleton (l : List Char) : joinNL [l] = l := rfl

theorem split_paragraphs_cons_space_fuel :
    ∀ (n : Nat) (s : List Char), s.length ≤ n → ∀ c, isPySpace c = true →
      split_paragraphs (c :: s) = split_paragraphs s := by
  intro n
  induction n with
  | zero =>
    intro s hs c hc
    have : s = [] := List.length_eq_zero.mp (Nat.le_zero.mp hs)
    subst this
    show stripFilter [[c]] = stripFilter [[]]
    rw [stripFilter_cons_empty _ (by rw [pyStrip_cons_space _ hc]; rfl),
      stripFilter_cons_empty _ pyStrip_nil]
  | succ n ih =>
    intro s hs c hc
    cases s with
    | nil =>
      show stripFilter [[c]] = stripFilter [[]]
      rw [stripFilter_cons_empty _ (by rw [pyStrip_cons_space _ hc]; rfl),
        stripFilter_cons_empty _ pyStrip_nil]
    | cons d t =>
      by_cases hcd : (c = '\n' && d = '\n') = true
      · obtain ⟨rfl, rfl⟩ : c = '\n' ∧ d = '\n' := by simpa using hcd
        have h1 : split_paragraphs ('\n' :: '\n' :: t) = split_paragraphs t := by
          rw [split_paragraphs_eq_stripFilter, splitNN_cons_sep,
            stripFilter_cons_empty _ pyStrip_nil, split_paragraphs_eq_stripFilter]
        rw [h1, ih t (by simp at hs; omega) '\n' rfl]
      · rw [split_paragraphs_eq_stripFilter,
          splitNN_cons_ne t (Bool.of_not_eq_true hcd)]
        cases hsp : splitNN (d :: t) with
        | nil => exact absurd hsp (splitNN_ne_nil _)
        | cons p ps =>
          rw [consHead, split_paragraphs_eq_stripFilter, hsp]
          exact stripFilter_cons_congr ps (pyStrip_cons_space p hc)

theorem split_paragraphs_cons_space {s : List Char} {c : Char} (hc : isPySpace c = true) :
    split_paragraphs (c :: s) = split_paragraphs s :=
  split_paragraphs_cons_space_fuel s.length s (Nat.le_refl _) c hc

theorem spec_split_cons_space {s : List Char} {c : Char} (hc : isPySpace c = true) :
    spec_split_paragraphs (c :: s) = spec_split_paragraphs s := by
  by_cases hcn : c = '\n'
  · subst hcn
    rw [spec_split_eq_stripFilter, spec_split_eq_stripFilter, splitNL_cons_nl,
      runsSplitBy_cons_blank _ _ rfl, List.map_cons, joinNL_nil,
      stripFilter_cons_empty _ pyStrip_nil]
  · rw [spec_split_eq_stripFilter, spec_split_eq_stripFilter, splitNL_cons_ne s hcn]
    cases hsp : splitNL s with
    | nil => exact absurd hsp (splitNL_ne_nil _)
    | cons l0 ls =>
      rw [consHead]
      by_cases hl0 : l0 = []
      · subst hl0
        rw [runsSplitBy_cons_nonblank _ _ (by rfl), runsSplitBy_cons_blank _ _ rfl]
        cases hr : runsSplitBy (fun l => l.isEmpty) ls with
        | nil => exact absurd hr (runsSplitBy_ne_nil _ _)
        | cons r0 rs =>
          rw [consHead, List.map_cons, List.map_cons, List.map_cons, joinNL_nil,
            stripFilter_cons_empty _ pyStrip_nil]
          cases r0 with
          | nil =>
            have h1 : pyStrip (joinNL [[c]]) = [] := by
              rw [joinNL_singleton, pyStrip_cons_space _ hc, pyStrip_nil]
            have h2 : pyStrip (joinNL ([] : List (List Char))) = [] := by
              rw [joinNL_nil, pyStrip_nil]
            rw [stripFilter_cons_empty _ h1, stripFilter_cons_empty _ h2]
          | cons x xs =>
            refine stripFilter_cons_congr _ ?_
            rw [joinNL_cons [c] (x :: xs) (by simp), List.singleton_append,
              pyStrip_cons_space _ hc, pyStrip_cons_space _ (by rfl)]
      · have hl0e : l0.isEmpty = false := isEmpty_false_of_ne_nil hl0
        rw [runsSplitBy_cons_nonblank _ _ (by simp [hl0e]),
          runsSplitBy_cons_nonblank _ _ hl0e]
        cases hr : runsSplitBy (fun l => l.isEmpty) ls with
        | nil => exact absurd hr (runsSplitBy_ne_nil _ _)
        | cons r0 rs =>
          rw [consHead, consHead, List.map_cons, List.map_cons]
          refine stripFilter_cons_congr _ ?_
          cases r0 with
          | nil =>
            rw [joinNL_singleton, joinNL_singleton, pyStrip_cons_space _ hc]
          | cons x xs =>
            rw [joinNL_cons (c :: l0) (x :: xs) (by simp), joinNL_cons l0 (x :: xs) (by simp),
              List.cons_append, pyStrip_cons_space _ hc]

theorem split_paragraphs_eq_spec_fuel :
    ∀ (n : Nat) (s : List Char), s.length ≤ n →
      split_paragraphs s = spec_split_paragraphs s := by
  intro n
  induction n with
  | zero =>
    intro s hs
    have : s = [] := List.length_eq_zero.mp (Nat.le_zero.mp hs)
    subst this
    decide
  | succ n ih =>
    intro s hs
    cases s with
    | nil => decide
    | cons c t =>
      by_cases hsp : isPySpace c = true
      · rw [split_paragraphs_cons_space hsp, spec_split_cons_space hsp]
        exact ih t (by simp at hs; omega)
      · have hc : isPySpace c = false := by simpa using hsp
        cases hb : breakNN (c :: t) with
        | none =>
          rw [split_paragraphs_break_none hb (pyStrip_ne_nil_of_head t hc),
            spec_split_break_none hb rfl hc]
        | some pp =>
          obtain ⟨pre, post⟩ := pp
          obtain ⟨heq, -⟩ := breakNN_eq_some hb
          have hlen : post.length ≤ n := by
            have := congrArg List.length heq
            simp at this hs
            omega
          cases pre with
          | nil =>
            exfalso
            have : c = '\n' := by simpa using congrArg List.head? heq
            subst this
            simp [isPySpace] at hc
          | cons c0 pre0 =>
            have hc0 : c0 = c := by simpa using (congrArg List.head? heq).symm
            subst hc0
            rw [split_paragraphs_break_some hb (pyStrip_ne_nil_of_head pre0 hc),
              spec_split_break_some hb rfl hc, ih post hlen]

/-- C6: the claim states that the chunker splits on blank-line boundaries where
a blank line may contain whitespace.  The code splits on the exact two-newline
separator, so a line holding a single space does not separate paragraphs: on
the input consisting of the characters a, newline, space, newline, b the code
returns one paragraph while the claim's splitter returns two. -/
theorem split_paragraphs_counterexample :
    split_paragraphs ['a', '\n', ' ', '\n', 'b'] = [['a', '\n', ' ', '\n', 'b']] ∧
    claimBlankSplit ['a', '\n', ' ', '\n', 'b'] = [['a'], ['b']] ∧
    split_paragraphs ['a', '\n', ' ', '\n', 'b'] ≠
      claimBlankSplit ['a', '\n', ' ', '\n', 'b'] := by decide

/-- C6 (amended): for every input text, the chunker splits it into paragraphs
where a paragraph is a maximal run of non-empty lines — a paragraph boundary
is one or more completely empty lines, equivalently an occurrence of two
consecutive newline characters, and a line containing only non-newline
whitespace does not separate paragraphs — with leading and trailing whitespace
trimmed from each paragraph and empty paragraphs dropped. -/
theorem split_paragraphs_spec (s : List Char) :
    split_paragraphs s = spec_split_paragraphs s :=
  split_paragraphs_eq_spec_fuel s.length s (Nat.le_refl _)

theorem countWordsAux_sep (a b : List Char) (f : Bool) :
    countWordsAux (a ++ '\n' :: '\n' :: b) f = countWordsAux a f + countWordsAux b false := by
  induction a generalizing f with
  | nil => simp [countWordsAux, isPySpace]
  | cons c a ih =>
    by_cases hc : isPySpace c = true
    · simp [countWordsAux, hc, ih]
    · simp [countWordsAux, hc, ih]
      omega

theorem countWords_joinNN (cur : List (List Char)) :
    countWords (joinNN cur) = (cur.map countWords).sum := by
  induction cur with
  | nil => rfl
  | cons p ps ih =>
    cases ps with
    | nil => simp [joinNN]
    | cons q ps' =>
      show countWords (p ++ '\n' :: '\n' :: joinNN (q :: ps')) = _
      rw [countWords, countWordsAux_sep]
      simp only [List.map_cons, List.sum_cons]
      rw [← countWords, ← countWords, ih]
      simp

theorem takeOverlap_sum (l : List (List Char)) (v : Nat) :
    (takeOverlap l v).2 = ((takeOverlap l v).1.map countWords).sum := by
  induction l generalizing v with
  | nil => rfl
  | cons p rest ih =>
    rw [takeOverlap]
    by_cases hv : v ≤ countWords p
    · simp [hv]
    · simp only [hv, if_neg, ite_false]
      simp [ih (v - countWords p)]

/-- The loop invariant of `chunk_text`: the running count equals the word
count of the buffered paragraphs, and every chunk emitted so far carries a
token count equal to the word count of its content. -/
def chunkInv (st : CState) : Prop :=
  st.token_count = (st.current.map countWords).sum ∧
  ∀ ch ∈ st.chunks, ch.tokens = some (countWords ch.content)

theorem chunkStep_inv (fid : String) (mx ov : Nat) (st : CState) (p : List Char)
    (h : chunkInv st) : chunkInv (chunkStep fid mx ov st p) := by
  obtain ⟨h1, h2⟩ := h
  unfold chunkStep
  by_cases hcl : mx < st.token_count + countWords p ∧ st.current ≠ []
  · simp only [if_pos hcl]
    by_cases hov : 0 < ov
    · simp only [if_pos hov]
      refine ⟨by simp [takeOverlap_sum], ?_⟩
      intro ch hch
      simp at hch
      rcases hch with hch | rfl
      · exact h2 ch hch
      · show some st.token_count = some (countWords (joinNN st.current))
        rw [countWords_joinNN, h1]
    · simp only [if_neg hov]
      refine ⟨by simp, ?_⟩
      intro ch hch
      simp at hch
      rcases hch with hch | rfl
      · exact h2 ch hch
      · show some st.token_count = some (countWords (joinNN st.current))
        rw [countWords_joinNN, h1]
  · simp only [if_neg hcl]
    exact ⟨by simp [h1], h2⟩

theorem foldl_chunkInv (fid : String) (mx ov : Nat) :
    ∀ (ps : List (List Char)) (st : CState), chunkInv st →
      chunkInv (ps.foldl (chunkStep fid mx ov) st) := by
  intro ps
  induction ps with
  | nil => intro st h; exact h
  | cons p ps ih => intro st h; exact ih _ (chunkStep_inv fid mx ov st p h)

/-- C9: every chunk emitted by `chunk_text` (before embedding annotation)
carries a tokens field equal to the number of whitespace-delimited words of
its content, including the final chunk and chunks seeded from overlap. -/
theorem chunk_text_tokens_eq_wordcount (text : List Char) (fid : String) (mx ov : Nat) :
    ∀ ch ∈ chunk_text text fid mx ov, ch.tokens = some (countWords ch.content) := by
  intro ch hch
  unfold chunk_text at hch
  by_cases hps : (split_paragraphs text).isEmpty
  · simp [hps] at hch
  · simp only [hps, Bool.false_eq_true, if_false] at hch
    have hinv := foldl_chunkInv fid mx ov (split_paragraphs text) ⟨[], [], 0, 0⟩
      ⟨rfl, by intro c hc; simp at hc⟩
    set st := (split_paragraphs text).foldl (chunkStep fid mx ov) ⟨[], [], 0, 0⟩ with hst
    by_cases hcur : st.current.isEmpty
    · simp only [hcur, if_true] at hch
      exact hinv.2 ch hch
    · simp only [hcur, Bool.false_eq_true, if_false] at hch
      rcases List.mem_append.mp hch with hch | hch
      · exact hinv.2 ch hch
      · have : ch = ⟨fid, st.chunk_index, joinNN st.current, some st.token_count, none⟩ := by
          simpa using hch
        subst this
        show some st.token_count = some (countWords (joinNN st.current))
        rw [countWords_joinNN, hinv.1]

/-- C9 witness: on a two-word text chunked with the default parameters, the
sole emitted chunk carries a token count equal to its content word count. -/
theorem chunk_text_tokens_eq_wordcount_witness :
    (⟨"f", 0, ['h', 'i', ' ', 'y'], some 2, none⟩ : Chunk).tokens =
      some (countWords (⟨"f", 0, ['h', 'i', ' ', 'y'], some 2, none⟩ : Chunk).content) := by
  refine chunk_text_tokens_eq_wordcount ['h', 'i', ' ', 'y'] "f" 800 200 _ ?_
  have : chunk_text ['h', 'i', ' ', 'y'] "f" 800 200 =
      [⟨"f", 0, ['h', 'i', ' ', 'y'], some 2, none⟩] := rfl
  rw [this]
  exact List.mem_singleton.mpr rfl

/-- C7: an input consisting of a single paragraph whose word count exceeds
the token budget is emitted as exactly one chunk containing the paragraph
whole; a paragraph is never split mid-paragraph. -/
theorem chunk_text_single_oversized (text : List Char) (fid : String) (mx ov : Nat)
    (p : List Char) (hp : split_paragraphs text = [p]) (hbig : mx < countWords p) :
    chunk_text text fid mx ov = [⟨fid, 0, p, some (countWords p), none⟩] := by
  unfold chunk_text
  rw [hp]
  simp only [List.isEmpty_cons, Bool.false_eq_true, if_false, List.foldl_cons, List.foldl_nil]
  unfold chunkStep
  simp only [if_neg (by simp : ¬(mx < (0 : Nat) + countWords p ∧ ([] : List (List Char)) ≠ []))]
  simp [joinNN]

/-- C7 witness: the three-word paragraph of the characters a, space, b, space,
c exceeds a budget of one token and is emitted as a single whole chunk. -/
theorem chunk_text_single_oversized_witness :
    split_paragraphs ['a', ' ', 'b', ' ', 'c'] = [['a', ' ', 'b', ' ', 'c']] ∧
    1 < countWords ['a', ' ', 'b', ' ', 'c'] ∧
    chunk_text ['a', ' ', 'b', ' ', 'c'] "f" 1 200 =
      [⟨"f", 0, ['a', ' ', 'b', ' ', 'c'], some (countWords ['a', ' ', 'b', ' ', 'c']), none⟩] :=
  ⟨by decide, by decide,
    chunk_text_single_oversized ['a', ' ', 'b', ' ', 'c'] "f" 1 200
      ['a', ' ', 'b', ' ', 'c'] (by decide) (by decide)⟩

theorem dropWhile_length_le (p : Char → Bool) (l : List Char) :
    (l.dropWhile p).length ≤ l.length := by
  induction l with
  | nil => simp
  | cons x xs ih =>
    rw [List.dropWhile_cons]
    split
    · exact Nat.le_trans ih (by simp)
    · simp

theorem head_of_dropWhile_fix {p : Char → Bool} {l : List Char} (h : l.dropWhile p = l) :
    ∀ c, l.head? = some c → p c = false := by
  intro c hc
  cases l with
  | nil => simp at hc
  | cons x xs =>
    have hxc : x = c := by simpa using hc
    subst hxc
    rw [List.dropWhile_cons] at h
    by_cases hp : p x = true
    · rw [if_pos hp] at h
      have := congrArg List.length h
      have hle := dropWhile_length_le p xs
      simp at this
      omega
    · simpa using hp

theorem dropWhile_eq_self_of_head {p : Char → Bool} {l : List Char}
    (h : ∀ c, l.head? = some c → p c = false) : l.dropWhile p = l := by
  cases l with
  | nil => rfl
  | cons x xs => rw [List.dropWhile_cons, if_neg (by simp [h x rfl])]

theorem head_dropWhile_false (p : Char → Bool) (l : List Char) :
    ∀ c, (l.dropWhile p).head? = some c → p c = false := by
  induction l with
  | nil => intro c hc; simp at hc
  | cons x xs ih =>
    intro c hc
    rw [List.dropWhile_cons] at hc
    by_cases hp : p x = true
    · rw [if_pos hp] at hc
      exact ih c hc
    · rw [if_neg (by simp [hp])] at hc
      obtain rfl : x = c := by simpa using hc
      simpa using hp

theorem dropWhile_idem (p : Char → Bool) (l : List Char) :
    (l.dropWhile p).dropWhile p = l.dropWhile p :=
  dropWhile_eq_self_of_head (head_dropWhile_false p l)

theorem stripR_decomp (q : List Char) :
    q = stripR q ++ (q.reverse.takeWhile isPySpace).reverse := by
  have h := List.takeWhile_append_dropWhile (p := isPySpace) (l := q.reverse)
  have h2 := congrArg List.reverse h
  rw [List.reverse_append, List.reverse_reverse] at h2
  rw [stripR]
  exact h2.symm

theorem stripR_idem (q : List Char) : stripR (stripR q) = stripR q := by
  rw [stripR, stripR, List.reverse_reverse, dropWhile_idem]

theorem stripL_idem (q : List Char) : stripL (stripL q) = stripL q := by
  rw [stripL, stripL, dropWhile_idem]

theorem head?_of_stripR_cons {q : List Char} {y : Char} {ys : List Char}
    (h : stripR q = y :: ys) : q.head? = some y := by
  have hd := stripR_decomp q
  rw [h] at hd
  rw [hd]
  rfl

theorem pyStrip_idem (q : List Char) : pyStrip (pyStrip q) = pyStrip q := by
  rw [pyStrip, pyStrip]
  have hx : stripL (stripL q) = stripL q := stripL_idem q
  have h1 : stripL (stripR (stripL q)) = stripR (stripL q) := by
    cases hsr : stripR (stripL q) with
    | nil => rfl
    | cons y ys =>
      have hy : isPySpace y = false := by
        have hhd : (stripL q).head? = some y := head?_of_stripR_cons hsr
        exact head_of_dropWhile_fix hx y hhd
      rw [← hsr, stripL]
      refine dropWhile_eq_self_of_head ?_
      intro c hc
      rw [hsr] at hc
      obtain rfl : y = c := by simpa using hc
      exact hy
  rw [h1, stripR_idem]

theorem hasNN_pyStrip {q : List Char} (h : hasNN q = false) : hasNN (pyStrip q) = false := by
  have h1 : hasNN (stripL q) = false := by
    have := List.takeWhile_append_dropWhile (p := isPySpace) (l := q)
    rw [stripL]
    exact hasNN_append_right (a := q.takeWhile isPySpace) (by rw [this]; exact h)
  have h2 := stripR_decomp (stripL q)
  rw [pyStrip]
  exact hasNN_append_left (b := ((stripL q).reverse.takeWhile isPySpace).reverse)
    (by rw [← h2]; exact h1)

/-- A paragraph as produced by `split_paragraphs`: non-empty, fully trimmed,
and containing no two-newline separator. -/
def GoodPara (p : List Char) : Prop :=
  p ≠ [] ∧ pyStrip p = p ∧ hasNN p = false

theorem split_paragraphs_good (s : List Char) : ∀ p ∈ split_paragraphs s, GoodPara p := by
  intro p hp
  rw [split_paragraphs_eq_stripFilter, stripFilter] at hp
  rw [List.mem_filter] at hp
  obtain ⟨hmem, hne⟩ := hp
  rw [List.mem_map] at hmem
  obtain ⟨q, hq, rfl⟩ := hmem
  refine ⟨by simpa using hne, pyStrip_idem q, hasNN_pyStrip (splitNN_noNN q hq)⟩

theorem dropWhile_eq_of_length {p : Char → Bool} {l : List Char}
    (h : (l.dropWhile p).length = l.length) : l.dropWhile p = l := by
  have hsplit := List.takeWhile_append_dropWhile (p := p) (l := l)
  have hlen := congrArg List.length hsplit
  rw [List.length_append] at hlen
  have : (l.takeWhile p).length = 0 := by omega
  have htw : l.takeWhile p = [] := List.length_eq_zero.mp this
  rw [htw] at hsplit
  simpa using hsplit

theorem stripR_length_le (q : List Char) : (stripR q).length ≤ q.length := by
  rw [stripR]
  calc ((q.reverse.dropWhile isPySpace).reverse).length
      = (q.reverse.dropWhile isPySpace).length := by rw [List.length_reverse]
    _ ≤ q.reverse.length := dropWhile_length_le _ _
    _ = q.length := by rw [List.length_reverse]

theorem stripR_eq_of_fix {q : List Char} (h : pyStrip q = q) : stripR q = q := by
  rw [pyStrip] at h
  have h1 : (stripL q).length ≤ q.length := by
    rw [stripL]
    exact dropWhile_length_le _ _
  have h2 : (stripR (stripL q)).length ≤ (stripL q).length := stripR_length_le _
  have h3 : (stripR (stripL q)).length = q.length := congrArg List.length h
  have hLlen : (stripL q).length = q.length := by omega
  have hL : stripL q = q := by
    rw [stripL] at hLlen ⊢
    exact dropWhile_eq_of_length hLlen
  rw [hL] at h
  exact h

theorem hasNN_append_nl_of_good (p : List Char) (hg : GoodPara p) :
    hasNN (p ++ ['\n']) = false := by
  obtain ⟨hne, hfix, hnn⟩ := hg
  have hsr : stripR p = p := stripR_eq_of_fix hfix
  have hdw : p.reverse.dropWhile isPySpace = p.reverse := by
    have := congrArg List.reverse hsr
    rw [stripR, List.reverse_reverse] at this
    exact this
  cases hrev : p.reverse with
  | nil => exact absurd (by simpa using congrArg List.reverse hrev) hne
  | cons z zs =>
    have hz : isPySpace z = false := by
      refine head_of_dropWhile_fix (by rw [hrev] at hdw; exact hdw) z ?_
      simp
    have hzn : z ≠ '\n' := by
      intro hx
      subst hx
      simp [isPySpace] at hz
    have hp : p = zs.reverse ++ [z] := by
      have := congrArg List.reverse hrev
      simpa using this
    rw [hp, List.append_assoc]
    refine hasNN_snoc_snoc zs.reverse z ?_ hzn
    rw [← hp]
    exact hnn

theorem split_paragraphs_joinNN (ps : List (List Char))
    (h : ∀ p ∈ ps, GoodPara p) : split_paragraphs (joinNN ps) = ps := by
  induction ps with
  | nil => decide
  | cons p ps' ih =>
    obtain ⟨hne, hfix, hnn⟩ := h p (by simp)
    cases ps' with
    | nil =>
      show split_paragraphs p = [p]
      rw [split_paragraphs_eq_stripFilter, splitNN_no_sep hnn,
        stripFilter_cons_ne _ (by rw [hfix]; exact hne), hfix]
      rfl
    | cons q ps'' =>
      show split_paragraphs (p ++ '\n' :: '\n' :: joinNN (q :: ps'')) = _
      rw [split_paragraphs_eq_stripFilter,
        splitNN_sep_decomp _ (hasNN_append_nl_of_good p (h p (by simp))),
        stripFilter_cons_ne _ (by rw [hfix]; exact hne), hfix,
        ← split_paragraphs_eq_stripFilter,
        ih (fun r hr => h r (List.mem_cons_of_mem p hr))]

theorem chunk_fold_blocks (fid : String) (mx : Nat) :
    ∀ (ps : List (List Char)) (st : CState) (acc : List (List Char)),
      (∀ p ∈ ps, GoodPara p) → (∀ p ∈ st.current, GoodPara p) →
      ((st.chunks.map (fun ch => split_paragraphs ch.content)).flatten ++ st.current = acc) →
      ((((ps.foldl (chunkStep fid mx 0) st).chunks.map
            (fun ch => split_paragraphs ch.content)).flatten ++
          (ps.foldl (chunkStep fid mx 0) st).current = acc ++ ps) ∧
        ∀ p ∈ (ps.foldl (chunkStep fid mx 0) st).current, GoodPara p) := by
  intro ps
  induction ps with
  | nil =>
    intro st acc _ hcur hinv
    exact ⟨by simpa using hinv, hcur⟩
  | cons p ps' ih =>
    intro st acc hg hcur hinv
    rw [List.foldl_cons]
    have hgp : GoodPara p := hg p (by simp)
    have hg' : ∀ r ∈ ps', GoodPara r := fun r hr => hg r (List.mem_cons_of_mem _ hr)
    have hstep :
        (((chunkStep fid mx 0 st p).chunks.map
            (fun ch => split_paragraphs ch.content)).flatten ++
          (chunkStep fid mx 0 st p).current = acc ++ [p]) ∧
        ∀ r ∈ (chunkStep fid mx 0 st p).current, GoodPara r := by
      unfold chunkStep
      by_cases hcl : mx < st.token_count + countWords p ∧ st.current ≠ []
      · simp only [if_pos hcl, if_neg (lt_irrefl 0)]
        constructor
        · simp only [List.map_append, List.map_cons, List.map_nil, List.flatten_append,
            List.flatten_cons, List.flatten_nil, List.append_nil, List.nil_append]
          rw [split_paragraphs_joinNN st.current hcur, hinv]
        · intro r hr
          simp at hr
          subst hr
          exact hgp
      · simp only [if_neg hcl]
        constructor
        · rw [← hinv, List.append_assoc]
        · intro r hr
          rcases List.mem_append.mp hr with hr | hr
          · exact hcur r hr
          · obtain rfl : r = p := by simpa using hr
            exact hgp
    have := ih _ (acc ++ [p]) hg' hstep.2 hstep.1
    simpa using this

/-- C8: with overlap zero, the chunks produced by `chunk_text` partition the
paragraph sequence of the input: concatenating the chunks' paragraph lists
reproduces the input's paragraph list, so no paragraph occurrence belongs to
two chunks, and when the input's paragraphs are pairwise distinct the chunks'
paragraph sets are pairwise disjoint. -/
theorem chunk_text_overlap_zero_disjoint (text : List Char) (fid : String) (mx : Nat) :
    ((chunk_text text fid mx 0).map (fun ch => split_paragraphs ch.content)).flatten =
      split_paragraphs text ∧
    ((split_paragraphs text).Nodup →
      ((chunk_text text fid mx 0).map (fun ch => split_paragraphs ch.content)).Pairwise
        List.Disjoint) := by
  have hjoin : ((chunk_text text fid mx 0).map
      (fun ch => split_paragraphs ch.content)).flatten = split_paragraphs text := by
    unfold chunk_text
    by_cases hps : (split_paragraphs text).isEmpty = true
    · have hempty : split_paragraphs text = [] := by
        cases h : split_paragraphs text with
        | nil => rfl
        | cons x xs => rw [h] at hps; simp at hps
      simp [hps, hempty]
    · simp only [hps, Bool.false_eq_true, if_false]
      have hfold := chunk_fold_blocks fid mx (split_paragraphs text) ⟨[], [], 0, 0⟩
        [] (split_paragraphs_good text)
        (by intro p hp; simp at hp) (by simp)
      set st := (split_paragraphs text).foldl (chunkStep fid mx 0) ⟨[], [], 0, 0⟩ with hst
      obtain ⟨hinv, hcur⟩ := hfold
      rw [List.nil_append] at hinv
      by_cases hc : st.current.isEmpty = true
      · have hcnil : st.current = [] := by
          cases h : st.current with
          | nil => rfl
          | cons x xs => rw [h] at hc; simp at hc
        simp only [hc, if_true]
        rw [hcnil, List.append_nil] at hinv
        exact hinv
      · simp only [hc, Bool.false_eq_true, if_false]
        rw [List.map_append, List.flatten_append]
        simp only [List.map_cons, List.map_nil, List.flatten_cons, List.flatten_nil,
          List.append_nil]
        show _ ++ split_paragraphs (joinNN st.current) = _
        rw [split_paragraphs_joinNN st.current hcur, hinv]
  refine ⟨hjoin, fun hnd => ?_⟩
  have hflat : (((chunk_text text fid mx 0).map
      (fun ch => split_paragraphs ch.content)).flatten).Nodup := by
    rw [hjoin]
    exact hnd
  exact (List.nodup_flatten.mp hflat).2

/-- C8 witness: a two-paragraph text chunked with budget one and overlap zero
yields two chunks whose paragraph lists partition the input's paragraphs and
are pairwise disjoint. -/
theorem chunk_text_overlap_zero_disjoint_witness :
    ((chunk_text ['a', '\n', '\n', 'b'] "f" 1 0).map
        (fun ch => split_paragraphs ch.content)).flatten =
      split_paragraphs ['a', '\n', '\n', 'b'] ∧
    ((chunk_text ['a', '\n', '\n', 'b'] "f" 1 0).map
        (fun ch => split_paragraphs ch.content)).Pairwise List.Disjoint :=
  ⟨(chunk_text_overlap_zero_disjoint ['a', '\n', '\n', 'b'] "f" 1).1,
    (chunk_text_overlap_zero_disjoint ['a', '\n', '\n', 'b'] "f" 1).2 (by decide)⟩

/-- Embeds the `DriveFile` dataclass of `drive.py`.  `modified_time` is the
raw value of the provider's modifiedTime field, which may be absent. -/
structure DriveFile where
  id : String
  name : String
  mime_type : String
  parents : List String
  md5_checksum : Option String
  modified_time : Option String

/-- The folder mime type checked by `Processor.bootstrap_folder` and
`Processor.handle_change`. -/
def folderMime : String := "application/vnd.google-apps.folder"

/-- Outcome of the external `dateutil.parser.isoparse` call composed with
`isoformat`: either the normalised string, or one of the two exception kinds
that `_normalise_timestamp` catches. -/
inductive ParseOutcome where
  | ok (isoformatted : String)
  | valueError
  | typeError

/-- Embeds `processing._normalise_timestamp`: `None` and the empty string are
falsy and short-circuit to `None`; a parse failure of either caught kind
yields `None`; otherwise the normalised ISO string is returned. -/
def normalise_timestamp (isoparse : String → ParseOutcome) : Option String → Option String
  | none => none
  | some v =>
    if v = "" then none
    else
      match isoparse v with
      | .ok s => some s
      | .valueError => none
      | .typeError => none

/-- Embeds the payload dict built by `Processor.bootstrap_folder` (lines
50-68) and `Processor.handle_change` (lines 89-107); the two sites build the
same fields. -/
structure UpsertPayload where
  p_drive_id : String
  p_parent_drive_id : Option String
  p_path : String
  p_mime_type : String
  p_title : String
  p_checksum : Option String
  p_modified_at : Option String
  p_last_reviewed_at : Option String
  p_core : Bool
  p_audience : List String
  p_age_levels : List String
  p_geographies : List String
  p_governance_models : List String
  p_vouchers : Option String
  p_created_by : Option String
  p_maintained_by : Option String
  p_raw_export_path : Option String

/-- External collaborators of the processor: the timestamp parser
(`dateutil`) and the record id returned by the `upsert_file_metadata` RPC. -/
structure Ctx where
  isoparse : String → ParseOutcome
  recordId : UpsertPayload → String

/-- Embeds `processing._derive_path`: `".".join(stack)`. -/
def derive_path : List String → String
  | [] => ""
  | [x] => x
  | x :: xs => x ++ "." ++ derive_path xs

/-- The metadata payload built for one node at a given materialised path. -/
def build_payload (ctx : Ctx) (f : DriveFile) (path : String) : UpsertPayload :=
  { p_drive_id := f.id
    p_parent_drive_id := f.parents.head?
    p_path := path
    p_mime_type := f.mime_type
    p_title := f.name
    p_checksum := f.md5_checksum
    p_modified_at := normalise_timestamp ctx.isoparse f.modified_time
    p_last_reviewed_at := none
    p_core := false
    p_audience := []
    p_age_levels := []
    p_geographies := []
    p_governance_models := []
    p_vouchers := none
    p_created_by := none
    p_maintained_by := none
    p_raw_export_path := none }

/-- Externally observable effects of the processor: a metadata upsert, an
invocation of `_process_file_content` (with the drive id and the record id
returned by the upsert), or the warning log emitted when a changed node is
not accessible. -/
inductive Event where
  | upsert (p : UpsertPayload)
  | processContent (driveId : String) (recordId : String)
  | warnInaccessible (fileId : String)

mutual
inductive DTree : Type where
  | mk : DriveFile → DForest → DTree
inductive DForest : Type where
  | nil : DForest
  | cons : DTree → DForest → DForest
end

/-- The drive file at the root of a provider subtree. -/
def DTree.file : DTree → DriveFile
  | .mk f _ => f

/-- The listed children of a provider subtree's root. -/
def DTree.children : DTree → DForest
  | .mk _ cs => cs

mutual
/-- The body of the `for item in items` loop of `Processor.bootstrap_folder`:
upsert the item's metadata at the path derived from the stack extended with
its id, then recurse for folders or invoke content processing for leaves. -/
def bootstrapItem (ctx : Ctx) : DTree → List String → List Event
  | .mk f cs, path_stack =>
    let ltree_path := derive_path (path_stack ++ [f.id])
    let payload := build_payload ctx f ltree_path
    let file_id := ctx.recordId payload
    Event.upsert payload ::
      (if f.mime_type = folderMime then bootstrap_folder ctx cs (path_stack ++ [f.id])
       else [Event.processContent f.id file_id])
/-- Embeds `Processor.bootstrap_folder`: the provider listing of the folder's
children is the forest; `path_stack` holds the ancestor ids including the
folder itself (the Python default is `[folder_id]`). -/
def bootstrap_folder (ctx : Ctx) : DForest → List String → List Event
  | .nil, _ => []
  | .cons t ts, path_stack => bootstrapItem ctx t path_stack ++ bootstrap_folder ctx ts path_stack
end

/-- Embeds `Processor.handle_change`: resolve the node (`getFile`); a missing
or inaccessible node is logged and ignored; a folder triggers a subtree walk
rooted at it; a leaf is upserted at the path parent-id.node-id (its bare id
when it has no parents) and content-processed. -/
def handle_change (ctx : Ctx) (getFile : String → Option DriveFile)
    (listing : String → DForest) (file_id : String) : List Event :=
  match getFile file_id with
  | none => [Event.warnInaccessible file_id]
  | some drive_file =>
    if drive_file.mime_type = folderMime then
      bootstrap_folder ctx (listing file_id) [file_id]
    else
      let ltree_path :=
        match drive_file.parents with
        | p :: _ => derive_path [p, drive_file.id]
        | [] => drive_file.id
      let payload := build_payload ctx drive_file ltree_path
      let record_id := ctx.recordId payload
      [Event.upsert payload, Event.processContent drive_file.id record_id]

mutual
def countFoldersT : DTree → Nat
  | .mk f cs => (if f.mime_type = folderMime then 1 else 0) + countFoldersF cs
def countFoldersF : DForest → Nat
  | .nil => 0
  | .cons t ts => countFoldersT t + countFoldersF ts
end

mutual
def countLeavesT : DTree → Nat
  | .mk f cs => (if f.mime_type = folderMime then 0 else 1) + countLeavesF cs
def countLeavesF : DForest → Nat
  | .nil => 0
  | .cons t ts => countLeavesT t + countLeavesF ts
end

mutual
/-- Well-formed provider state: a node that is not a folder has no listed
children (the provider only lists children of folders). -/
def wfT : DTree → Bool
  | .mk f cs =>
    (f.mime_type = folderMime || (match cs with | .nil => true | .cons _ _ => false)) && wfF cs
def wfF : DForest → Bool
  | .nil => true
  | .cons t ts => wfT t && wfF ts
end

/-- The number of metadata upserts in an event list. -/
def countUpserts (es : List Event) : Nat :=
  es.countP (fun e => match e with | .upsert _ => true | _ => false)

/-- The number of content-processing invocations in an event list. -/
def countProcess (es : List Event) : Nat :=
  es.countP (fun e => match e with | .processContent _ _ => true | _ => false)

mutual
/-- The ancestor id chains, relative to the forest's top, of every node the
walk reconciles, in traversal order. -/
def chainsT : DTree → List (List String)
  | .mk f cs =>
    [f.id] :: (if f.mime_type = folderMime then (chainsF cs).map (fun c => f.id :: c) else [])
def chainsF : DForest → List (List String)
  | .nil => []
  | .cons t ts => chainsT t ++ chainsF ts
end

/-- The paths submitted by the upsert events, in order. -/
def upsertPathsOf (es : List Event) : List String :=
  es.filterMap (fun e => match e with | .upsert p => some p.p_path | _ => none)

theorem countUpserts_cons_upsert (p : UpsertPayload) (es : List Event) :
    countUpserts (Event.upsert p :: es) = 1 + countUpserts es := by
  rw [countUpserts, List.countP_cons, countUpserts]
  simp
  omega

theorem countUpserts_cons_process (a b : String) (es : List Event) :
    countUpserts (Event.processContent a b :: es) = countUpserts es := by
  rw [countUpserts, List.countP_cons, countUpserts]
  simp [List.countP]

theorem countProcess_cons_upsert (p : UpsertPayload) (es : List Event) :
    countProcess (Event.upsert p :: es) = countProcess es := by
  rw [countProcess, List.countP_cons, countProcess]
  simp [List.countP]

theorem countProcess_cons_process (a b : String) (es : List Event) :
    countProcess (Event.processContent a b :: es) = 1 + countProcess es := by
  rw [countProcess, List.countP_cons, countProcess]
  simp
  omega

theorem countUpserts_append (a b : List Event) :
    countUpserts (a ++ b) = countUpserts a + countUpserts b := by
  rw [countUpserts, countUpserts, countUpserts, List.countP_append]

theorem countProcess_append (a b : List Event) :
    countProcess (a ++ b) = countProcess a + countProcess b := by
  rw [countProcess, countProcess, countProcess, List.countP_append]

theorem countUpserts_nil : countUpserts [] = 0 := rfl

theorem countProcess_nil : countProcess [] = 0 := rfl

theorem wfT_mk {f : DriveFile} {cs : DForest} (h : wfT (.mk f cs) = true) :
    (f.mime_type = folderMime ∨ cs = DForest.nil) ∧ wfF cs = true := by
  rw [wfT.eq_def] at h
  rcases Bool.and_eq_true_iff.mp h with ⟨h1, h2⟩
  refine ⟨?_, h2⟩
  rcases Bool.or_eq_true_iff.mp h1 with h1 | h1
  · exact Or.inl (by simpa using h1)
  · cases cs with
    | nil => exact Or.inr rfl
    | cons t ts => simp at h1

mutual
theorem bootstrap_counts_item (ctx : Ctx) (t : DTree) (stack : List String)
    (h : wfT t = true) :
    countUpserts (bootstrapItem ctx t stack) = countFoldersT t + countLeavesT t ∧
    countProcess (bootstrapItem ctx t stack) = countLeavesT t := by
  cases t with
  | mk f cs =>
    obtain ⟨hor, hw⟩ := wfT_mk h
    rw [bootstrapItem]
    by_cases hf : f.mime_type = folderMime
    · rw [if_pos hf]
      obtain ⟨hu, hp⟩ := bootstrap_counts_forest ctx cs (stack ++ [f.id]) hw
      rw [countUpserts_cons_upsert, countProcess_cons_upsert, hu, hp, countFoldersT,
        countLeavesT, if_pos hf, if_pos hf]
      omega
    · have hcs : cs = DForest.nil := by
        rcases hor with hor | hor
        · exact absurd hor hf
        · exact hor
      subst hcs
      rw [if_neg hf, countUpserts_cons_upsert, countProcess_cons_upsert,
        countUpserts_cons_process, countProcess_cons_process, countUpserts_nil,
        countProcess_nil, countFoldersT, countLeavesT, if_neg hf, if_neg hf,
        countFoldersF, countLeavesF]
      omega
theorem bootstrap_counts_forest (ctx : Ctx) (ts : DForest) (stack : List String)
    (h : wfF ts = true) :
    countUpserts (bootstrap_folder ctx ts stack) = countFoldersF ts + countLeavesF ts ∧
    countProcess (bootstrap_folder ctx ts stack) = countLeavesF ts := by
  cases ts with
  | nil =>
    rw [bootstrap_folder]
    exact ⟨rfl, rfl⟩
  | cons t ts =>
    rw [wfF] at h
    obtain ⟨h1, h2⟩ := Bool.and_eq_true_iff.mp h
    obtain ⟨hu1, hp1⟩ := bootstrap_counts_item ctx t stack h1
    obtain ⟨hu2, hp2⟩ := bootstrap_counts_forest ctx ts stack h2
    rw [bootstrap_folder, countUpserts_append, countProcess_append, hu1, hp1, hu2, hp2,
      countFoldersF, countLeavesF]
    omega
end

/-- C2: walking a well-formed tree with F folders and L leaf files issues
exactly one metadata upsert per node, F + L in total, and invokes content
processing exactly L times, once per leaf; the statement quantifies over
every forest, hence over every sibling listing order the provider may use. -/
theorem bootstrap_folder_counts (ctx : Ctx) (ts : DForest) (stack : List String)
    (h : wfF ts = true) :
    countUpserts (bootstrap_folder ctx ts stack) = countFoldersF ts + countLeavesF ts ∧
    countProcess (bootstrap_folder ctx ts stack) = countLeavesF ts :=
  bootstrap_counts_forest ctx ts stack h

/-- A concrete context for witnesses: the timestamp parser always fails and
the persistence layer derives record ids from drive ids. -/
def exCtx : Ctx :=
  ⟨fun _ => ParseOutcome.valueError, fun p => "rec-" ++ p.p_drive_id⟩

/-- A concrete drive file for witnesses. -/
def exFile (i m : String) : DriveFile := ⟨i, i, m, [], none, none⟩

/-- The spec's example tree: a folder containing one subfolder (holding one
leaf) and one leaf at the top level. -/
def exForest : DForest :=
  .cons (.mk (exFile "sub" folderMime)
      (.cons (.mk (exFile "l2" "application/vnd.google-apps.document") .nil) .nil))
    (.cons (.mk (exFile "l1" "application/vnd.google-apps.document") .nil) .nil)

/-- C2 witness: the example tree has one folder and two leaves below the walk
root and produces three upserts and two content-processing calls. -/
theorem bootstrap_folder_counts_witness :
    wfF exForest = true ∧
    countFoldersF exForest + countLeavesF exForest = 3 ∧
    countUpserts (bootstrap_folder exCtx exForest ["root"]) = 3 ∧
    countProcess (bootstrap_folder exCtx exForest ["root"]) = 2 := by
  have h := bootstrap_folder_counts exCtx exForest ["root"] (by decide)
  refine ⟨by decide, by decide, ?_, ?_⟩
  · rw [h.1]
    decide
  · rw [h.2]
    decide

/-- C5: a change notification for a node the provider no longer resolves is a
no-op: the handler only logs the warning and performs no metadata upsert and
no content processing. -/
theorem handle_change_inaccessible_noop (ctx : Ctx) (getFile : String → Option DriveFile)
    (listing : String → DForest) (fid : String) (h : getFile fid = none) :
    handle_change ctx getFile listing fid = [Event.warnInaccessible fid] ∧
    (∀ p, Event.upsert p ∉ handle_change ctx getFile listing fid) ∧
    (∀ a b, Event.processContent a b ∉ handle_change ctx getFile listing fid) := by
  have he : handle_change ctx getFile listing fid = [Event.warnInaccessible fid] := by
    rw [handle_change, h]
  refine ⟨he, ?_, ?_⟩
  · intro p
    rw [he]
    simp
  · intro a b
    rw [he]
    simp

/-- C5 witness: with a provider that resolves nothing, handling a change for
a node id yields only the warning event. -/
theorem handle_change_inaccessible_noop_witness :
    handle_change exCtx (fun _ => none) (fun _ => DForest.nil) "gone" =
      [Event.warnInaccessible "gone"] ∧
    (∀ p, Event.upsert p ∉ handle_change exCtx (fun _ => none) (fun _ => DForest.nil) "gone") ∧
    (∀ a b, Event.processContent a b ∉
      handle_change exCtx (fun _ => none) (fun _ => DForest.nil) "gone") :=
  handle_change_inaccessible_noop exCtx (fun _ => none) (fun _ => DForest.nil) "gone" rfl

theorem upsertPathsOf_append (a b : List Event) :
    upsertPathsOf (a ++ b) = upsertPathsOf a ++ upsertPathsOf b := by
  rw [upsertPathsOf, upsertPathsOf, upsertPathsOf, List.filterMap_append]

theorem upsertPathsOf_cons_upsert (p : UpsertPayload) (es : List Event) :
    upsertPathsOf (Event.upsert p :: es) = p.p_path :: upsertPathsOf es := rfl

theorem upsertPathsOf_cons_process (a b : String) (es : List Event) :
    upsertPathsOf (Event.processContent a b :: es) = upsertPathsOf es := rfl

theorem upsertPathsOf_nil : upsertPathsOf [] = [] := rfl

mutual
theorem bootstrap_paths_item (ctx : Ctx) (t : DTree) (stack : List String) :
    upsertPathsOf (bootstrapItem ctx t stack) =
      (chainsT t).map (fun c => derive_path (stack ++ c)) := by
  cases t with
  | mk f cs =>
    rw [bootstrapItem, chainsT]
    by_cases hf : f.mime_type = folderMime
    · rw [if_pos hf, if_pos hf, upsertPathsOf_cons_upsert,
        bootstrap_paths_forest ctx cs (stack ++ [f.id]), List.map_cons, List.map_map]
      congr 1
      apply List.map_congr_left
      intro c _
      show derive_path ((stack ++ [f.id]) ++ c) = derive_path (stack ++ f.id :: c)
      rw [List.append_assoc, List.singleton_append]
    · rw [if_neg hf, if_neg hf, upsertPathsOf_cons_upsert, upsertPathsOf_cons_process,
        upsertPathsOf_nil, List.map_cons, List.map_nil]
      rfl
theorem bootstrap_paths_forest (ctx : Ctx) (ts : DForest) (stack : List String) :
    upsertPathsOf (bootstrap_folder ctx ts stack) =
      (chainsF ts).map (fun c => derive_path (stack ++ c)) := by
  cases ts with
  | nil => rw [bootstrap_folder, chainsF, upsertPathsOf_nil, List.map_nil]
  | cons t ts =>
    rw [bootstrap_folder, chainsF, upsertPathsOf_append, List.map_append,
      bootstrap_paths_item ctx t stack, bootstrap_paths_forest ctx ts stack]
end

theorem derive_path_snoc (s : List String) (x : String) (h : s ≠ []) :
    derive_path (s ++ [x]) = derive_path s ++ "." ++ x := by
  induction s with
  | nil => exact absurd rfl h
  | cons y ys ih =>
    cases ys with
    | nil => rfl
    | cons z zs =>
      have h1 : derive_path ((y :: z :: zs) ++ [x]) =
          y ++ "." ++ derive_path ((z :: zs) ++ [x]) := rfl
      have h2 : derive_path (y :: z :: zs) = y ++ "." ++ derive_path (z :: zs) := rfl
      rw [h1, ih (by simp), h2]
      simp only [String.append_assoc]

/-- C3 (amended): every node reconciled by the tree walk is upserted at the
dotted concatenation of ancestor ids from the walk root to the node
inclusive, and each such path strictly extends the parent's walk path by one
dotted segment.  A node reconciled via a single-node change notification is
instead upserted at first-parent-id.node-id, or its bare id when it has no
parents, which for nodes nested more than one level below the walk root is
not the ancestor chain from that root. -/
theorem reconcile_paths_amended (ctx : Ctx) (ts : DForest) (stack : List String)
    (getFile : String → Option DriveFile) (listing : String → DForest)
    (fid : String) (df : DriveFile) :
    upsertPathsOf (bootstrap_folder ctx ts stack) =
      (chainsF ts).map (fun c => derive_path (stack ++ c)) ∧
    (stack ≠ [] → ∀ x, derive_path (stack ++ [x]) = derive_path stack ++ "." ++ x ∧
      (derive_path (stack ++ [x])).length = (derive_path stack).length + 1 + x.length) ∧
    (getFile fid = some df → df.mime_type ≠ folderMime →
      upsertPathsOf (handle_change ctx getFile listing fid) =
        [match df.parents with
         | p :: _ => p ++ "." ++ df.id
         | [] => df.id]) := by
  refine ⟨bootstrap_paths_forest ctx ts stack, ?_, ?_⟩
  · intro hne x
    refine ⟨derive_path_snoc stack x hne, ?_⟩
    rw [derive_path_snoc stack x hne, String.length_append, String.length_append]
    rfl
  · intro h1 h2
    rw [handle_change, h1]
    simp only [if_neg h2]
    cases hp : df.parents with
    | nil => rfl
    | cons p ps => rfl

/-- Concrete state falsifying C3 as stated: the leaf n sits two levels below
the walk root r, inside folder a. -/
def cexLeafN : DriveFile :=
  ⟨"n", "n", "application/vnd.google-apps.document", ["a"], none, none⟩

/-- The subtree of the walk root r: folder a containing leaf n. -/
def cexForest : DForest :=
  .cons (.mk ⟨"a", "a", folderMime, ["r"], none, none⟩ (.cons (.mk cexLeafN .nil) .nil)) .nil

/-- Provider lookup for the counterexample change notification. -/
def cexGetFile : String → Option DriveFile := fun i => if i = "n" then some cexLeafN else none

/-- Provider listing for the counterexample (never consulted for a leaf). -/
def cexListing : String → DForest := fun _ => DForest.nil

/-- C3 counterexample: walking from root r submits n at path r.a.n, the
ancestor chain from the traversal root, but the single-node change
notification for the same node submits a.n, which is neither the chain from
the walk root (r.a.n) nor the chain of a traversal rooted at n itself (n),
and does not extend the parent's walk path r.a. -/
theorem reconcile_paths_counterexample :
    upsertPathsOf (bootstrap_folder exCtx cexForest ["r"]) = ["r.a", "r.a.n"] ∧
    upsertPathsOf (handle_change exCtx cexGetFile cexListing "n") = ["a.n"] ∧
    ("a.n" : String) ≠ "r.a.n" ∧ ("a.n" : String) ≠ "n" := by decide

/-- C3 witness: the amended statement instantiated at the counterexample
state: walk paths match the chains, the path of a child strictly extends the
walk path of its parent stack, and the change-notification path of the leaf
n is a.n. -/
theorem reconcile_paths_amended_witness :
    upsertPathsOf (bootstrap_folder exCtx cexForest ["r"]) =
      (chainsF cexForest).map (fun c => derive_path (["r"] ++ c)) ∧
    (derive_path (["r"] ++ ["a"]) = derive_path ["r"] ++ "." ++ "a" ∧
      (derive_path (["r"] ++ ["a"])).length = (derive_path ["r"]).length + 1 + "a".length) ∧
    upsertPathsOf (handle_change exCtx cexGetFile cexListing "n") = ["a" ++ "." ++ "n"] := by
  obtain ⟨h1, h2, h3⟩ :=
    reconcile_paths_amended exCtx cexForest ["r"] cexGetFile cexListing "n" cexLeafN
  exact ⟨h1, h2 (by decide) "a", h3 rfl (by decide)⟩

/-- One response of the embedding provider: the embedding vector extracted
from the response body (which the code allows to be absent) and the reported
total token usage (also possibly absent). -/
structure EmbedData where
  embedding : Option (List Float)
  total_tokens : Option Nat

/-- The sequential per-chunk request loop of `embed_chunks` (lines 93-105):
each chunk in order is sent to the provider; a failed request raises,
aborting the whole loop; on success the chunk receives the embedding and its
token count is overwritten by the provider figure when reported. -/
def embedLoop (provider : List Char → Except String EmbedData) :
    List Chunk → Except String (List Chunk)
  | [] => .ok []
  | c :: rest =>
    match provider c.content with
    | .error e => .error e
    | .ok d =>
      match embedLoop provider rest with
      | .error e => .error e
      | .ok rest' =>
        .ok ({ c with
                embedding := d.embedding
                tokens := match d.total_tokens with | some t => some t | none => c.tokens } ::
              rest')

/-- Embeds `text_processing.embed_chunks`: without a configured provider
credential the chunks pass through unchanged; otherwise every chunk is
embedded in order and any request failure fails the whole call. -/
def embed_chunks (has_embeddings : Bool) (provider : List Char → Except String EmbedData)
    (chunks : List Chunk) : Except String (List Chunk) :=
  if !has_embeddings then .ok chunks
  else embedLoop provider chunks

/-- The chunks table keyed by file id: the rows stored for each record. -/
def Store : Type := String → List Chunk

/-- Embeds `SupabaseClient.update_chunks`: delete every chunk row of the
record, then insert the new payload rows (all of which carry this record's
file id, as built by `chunk_text`). -/
def update_chunks (file_id : String) (payload : List Chunk) (store : Store) : Store :=
  fun k => if k = file_id then payload else store k

/-- The mime-type whitelist `SUPPORTED_EXPORTS` of `processing.py`. -/
def SUPPORTED_EXPORTS : List (String × String) :=
  [("application/vnd.google-apps.document", "text/plain"),
   ("application/vnd.google-apps.spreadsheet", "text/csv"),
   ("application/vnd.google-apps.presentation", "text/plain")]

/-- Embeds `Processor._process_file_content`: unsupported mime types are
skipped; otherwise the text is exported, chunked with the default budget 800
and overlap 200, embedded, and only after the embedding of every chunk has
succeeded is the record's chunk set replaced.  The result pairs the store
after the call with the error, if any, that propagated; an error leaves the
store exactly as it was because the destructive replace has not run yet. -/
def process_file_content (has_embeddings : Bool)
    (provider : List Char → Except String EmbedData)
    (export_file : String → String → List Char) (drive_file : DriveFile)
    (file_id : String) (store : Store) : Store × Option String :=
  match SUPPORTED_EXPORTS.lookup drive_file.mime_type with
  | none => (store, none)
  | some export_type =>
    let text_content := export_file drive_file.id export_type
    let chunks := chunk_text text_content file_id 800 200
    match embed_chunks has_embeddings provider chunks with
    | .error e => (store, some e)
    | .ok chunks2 => (update_chunks file_id chunks2 store, none)

theorem embedLoop_error_of_mem {provider : List Char → Except String EmbedData}
    {chunks : List Chunk} {c : Chunk} {e : String} (hc : c ∈ chunks)
    (hp : provider c.content = .error e) : ∃ e', embedLoop provider chunks = .error e' := by
  induction chunks with
  | nil => simp at hc
  | cons d rest ih =>
    rcases List.mem_cons.mp hc with rfl | hc'
    · exact ⟨e, by rw [embedLoop, hp]⟩
    · rw [embedLoop]
      cases hd : provider d.content with
      | error e2 => exact ⟨e2, rfl⟩
      | ok dta =>
        obtain ⟨e', he'⟩ := ih hc'
        rw [he']
        exact ⟨e', rfl⟩

/-- C1: if the embedding provider fails on any chunk of a document, the whole
annotate operation fails, the error propagates out of content processing,
and the store — in particular the document's previously persisted chunk
set — is returned unchanged: the delete-then-insert replacement only runs
after every chunk has been embedded successfully. -/
theorem process_file_content_embed_failure (provider : List Char → Except String EmbedData)
    (export_file : String → String → List Char) (drive_file : DriveFile)
    (file_id : String) (store : Store) (export_type : String) (c : Chunk) (e : String)
    (hsup : SUPPORTED_EXPORTS.lookup drive_file.mime_type = some export_type)
    (hc : c ∈ chunk_text (export_file drive_file.id export_type) file_id 800 200)
    (hp : provider c.content = .error e) :
    ∃ e', process_file_content true provider export_file drive_file file_id store =
      (store, some e') := by
  obtain ⟨e', he'⟩ := embedLoop_error_of_mem hc hp
  refine ⟨e', ?_⟩
  rw [process_file_content, hsup]
  show (match embed_chunks true provider
      (chunk_text (export_file drive_file.id export_type) file_id 800 200) with
    | .error e => (store, some e)
    | .ok chunks2 => (update_chunks file_id chunks2 store, none)) = (store, some e')
  rw [embed_chunks]
  simp only [Bool.not_true, Bool.false_eq_true, if_false]
  rw [he']

/-- A document drive file for the C1 witness. -/
def cexDoc : DriveFile :=
  ⟨"d1", "Doc", "application/vnd.google-apps.document", ["p"], none, none⟩

/-- A provider whose every embedding request fails. -/
def cexFailingProvider : List Char → Except String EmbedData := fun _ => .error "boom"

/-- An export that returns the two-character text hi for every file. -/
def cexExport : String → String → List Char := fun _ _ => ['h', 'i']

/-- C1 witness: with an always-failing provider, content processing of a
supported document returns the store unchanged together with the error. -/
theorem process_file_content_embed_failure_witness :
    ∃ e', process_file_content true cexFailingProvider cexExport cexDoc "rec"
      (fun _ => []) = ((fun _ => []), some e') := by
  refine process_file_content_embed_failure cexFailingProvider cexExport cexDoc "rec"
    (fun _ => []) "text/plain" ⟨"rec", 0, ['h', 'i'], some 1, none⟩ "boom" rfl ?_ rfl
  have h : chunk_text (cexExport cexDoc.id "text/plain") "rec" 800 200 =
      [⟨"rec", 0, ['h', 'i'], some 1, none⟩] := rfl
  rw [h]
  exact List.mem_singleton.mpr rfl

/-- One entry of the webhook payload's changes array, holding the two fields
`drive_webhook` reads: `change.get("fileId")` and `change.get("id")`. -/
structure WebhookChange where
  fileId : Option String
  id : Option String

/-- Python `change.get("fileId") or change.get("id")`: `None` and the empty
string are falsy, so either falls through to the second field. -/
def pyOrStr : Option String → Option String → Option String
  | some s, b => if s = "" then b else some s
  | none, b => b

/-- The file id the loop acts on: the `or` of the two fields, with
`if not file_id: continue` folded in (an empty string is also skipped). -/
def extractFileId (c : WebhookChange) : Option String :=
  match pyOrStr c.fileId c.id with
  | some s => if s = "" then none else some s
  | none => none

/-- Embeds the `for change in changes` loop of `app.drive_webhook`: changes
are handled strictly in order; an entry without a usable id is skipped; a
handler exception propagates immediately, so the failing id is the last one
attempted and the remaining entries are never handled.  Returns the ids
passed to `handle_change`, the ids appended to `processed`, and the error
that escaped, if any. -/
def webhookLoop (handler : String → Except String Unit) :
    List WebhookChange → List String × List String × Option String
  | [] => ([], [], none)
  | c :: rest =>
    match extractFileId c with
    | none => webhookLoop handler rest
    | some fid =>
      match handler fid with
      | .error e => ([fid], [], some e)
      | .ok _ =>
        let r := webhookLoop handler rest
        (fid :: r.1, fid :: r.2.1, r.2.2)

/-- The ids the loop would act on, in payload order. -/
def extractedIds (changes : List WebhookChange) : List String :=
  changes.filterMap extractFileId

/-- C4 (amended): the webhook processes its batch sequentially in payload
order, skipping entries without an id.  When every handled change succeeds,
every extracted id is handled and recorded as processed; but one change's
failure aborts the batch: the ids handled are exactly the successful prefix
plus the failing id, the processed list is only that prefix, and the later
changes of the batch are never handled. -/
theorem drive_webhook_batch_amended (handler : String → Except String Unit)
    (changes : List WebhookChange) :
    ((webhookLoop handler changes).2.2 = none →
      (webhookLoop handler changes).1 = extractedIds changes ∧
      (webhookLoop handler changes).2.1 = extractedIds changes) ∧
    (∀ e, (webhookLoop handler changes).2.2 = some e →
      ∃ pre fid post, extractedIds changes = pre ++ fid :: post ∧
        (∀ x ∈ pre, handler x = .ok ()) ∧ handler fid = .error e ∧
        (webhookLoop handler changes).1 = pre ++ [fid] ∧
        (webhookLoop handler changes).2.1 = pre) := by
  induction changes with
  | nil => exact ⟨fun _ => ⟨rfl, rfl⟩, fun e he => by simp [webhookLoop] at he⟩
  | cons c rest ih =>
    cases hx : extractFileId c with
    | none =>
      have hw : webhookLoop handler (c :: rest) = webhookLoop handler rest := by
        rw [webhookLoop, hx]
      have hi : extractedIds (c :: rest) = extractedIds rest := by
        rw [extractedIds, List.filterMap_cons, hx, extractedIds]
      rw [hw, hi]
      exact ih
    | some fid =>
      cases hh : handler fid with
      | error e =>
        have hw : webhookLoop handler (c :: rest) = ([fid], [], some e) := by
          simp only [webhookLoop, hx, hh]
        have hi : extractedIds (c :: rest) = fid :: extractedIds rest := by
          rw [extractedIds, List.filterMap_cons, hx, extractedIds]
        rw [hw, hi]
        refine ⟨fun hnone => by simp at hnone, fun e2 he2 => ?_⟩
        obtain rfl : e = e2 := by simpa using he2
        exact ⟨[], fid, extractedIds rest, rfl, by simp, hh, rfl, rfl⟩
      | ok u =>
        obtain rfl : u = () := rfl
        have hw : webhookLoop handler (c :: rest) =
            (fid :: (webhookLoop handler rest).1, fid :: (webhookLoop handler rest).2.1,
              (webhookLoop handler rest).2.2) := by
          simp only [webhookLoop, hx, hh]
        have hi : extractedIds (c :: rest) = fid :: extractedIds rest := by
          rw [extractedIds, List.filterMap_cons, hx, extractedIds]
        rw [hw, hi]
        constructor
        · intro hnone
          simp only at hnone
          obtain ⟨h1, h2⟩ := ih.1 hnone
          rw [h1, h2]
          exact ⟨rfl, rfl⟩
        · intro e he
          simp only at he
          obtain ⟨pre, f, post, hsplit, hpre, hf, hatt, hproc⟩ := ih.2 e he
          refine ⟨fid :: pre, f, post, by simp [hsplit], ?_, hf, ?_, ?_⟩
          · intro x hxm
            rcases List.mem_cons.mp hxm with rfl | hxm
            · exact hh
            · exact hpre x hxm
          · simp [hatt]
          · simp [hproc]

/-- A handler that fails on the id b and succeeds elsewhere. -/
def cexHandler : String → Except String Unit :=
  fun fid => if fid = "b" then .error "boom" else .ok ()

/-- A webhook batch of three changes with ids a, b, c. -/
def cexChanges : List WebhookChange :=
  [⟨some "a", none⟩, ⟨some "b", none⟩, ⟨some "c", none⟩]

/-- C4 counterexample: when handling the change b fails, the change c later
in the same batch is never handled — its id appears in the batch's extracted
ids but not among the ids passed to the handler — so one change's failure
does abort the processing of later changes, contrary to the claim. -/
theorem drive_webhook_counterexample :
    webhookLoop cexHandler cexChanges = (["a", "b"], ["a"], some "boom") ∧
    "c" ∈ extractedIds cexChanges ∧
    "c" ∉ (webhookLoop cexHandler cexChanges).1 := by decide

/-- C4 witness: the amended statement instantiated at the failing batch: the
extracted ids split into the successful prefix a, the failing id b, and the
never-handled remainder, the attempted ids are exactly a then b, and only a
is recorded as processed. -/
theorem drive_webhook_batch_amended_witness :
    ∃ pre fid post, extractedIds cexChanges = pre ++ fid :: post ∧
      (∀ x ∈ pre, cexHandler x = .ok ()) ∧ cexHandler fid = .error "boom" ∧
      (webhookLoop cexHandler cexChanges).1 = pre ++ [fid] ∧
      (webhookLoop cexHandler cexChanges).2.1 = pre :=
  (drive_webhook_batch_amended cexHandler cexChanges).2 "boom" (by decide)

/-- C10: `_normalise_timestamp` is total on its optional-string input: it
returns none exactly when the value is missing, empty, or fails to parse
with either caught exception kind, and the normalised ISO string when the
parse succeeds; building the metadata payload therefore cannot fail on a
malformed timestamp, whose slot simply becomes none. -/
theorem normalise_timestamp_total (ctx : Ctx) (f : DriveFile) (path : String)
    (value : Option String) :
    (normalise_timestamp ctx.isoparse value = none ↔
      (value = none ∨ value = some "" ∨
        ∃ s, value = some s ∧
          (ctx.isoparse s = .valueError ∨ ctx.isoparse s = .typeError))) ∧
    (∀ s out, value = some s → s ≠ "" → ctx.isoparse s = .ok out →
      normalise_timestamp ctx.isoparse value = some out) ∧
    (build_payload ctx f path).p_modified_at =
      normalise_timestamp ctx.isoparse f.modified_time := by
  refine ⟨?_, ?_, rfl⟩
  · constructor
    · intro h
      cases value with
      | none => exact Or.inl rfl
      | some v =>
        by_cases hv : v = ""
        · exact Or.inr (Or.inl (by rw [hv]))
        · rw [normalise_timestamp, if_neg hv] at h
          cases hp : ctx.isoparse v with
          | ok s => rw [hp] at h; cases h
          | valueError => exact Or.inr (Or.inr ⟨v, rfl, Or.inl hp⟩)
          | typeError => exact Or.inr (Or.inr ⟨v, rfl, Or.inr hp⟩)
    · intro h
      rcases h with rfl | rfl | ⟨s, rfl, hp⟩
      · rfl
      · rfl
      · rw [normalise_timestamp]
        by_cases hs : s = ""
        · rw [if_pos hs]
        · rw [if_neg hs]
          rcases hp with hp | hp <;> rw [hp]
  · intro s out hval hs hp
    subst hval
    rw [normalise_timestamp, if_neg hs, hp]

/-- C10 witness: a parseable value is normalised, and with the witness
context, whose parser always fails with a value error, a malformed value
becomes none while the payload is still built. -/
theorem normalise_timestamp_total_witness :
    (normalise_timestamp (fun _ => ParseOutcome.ok "2024-01-01T00:00:00")
        (some "2024-01-01 00:00:00Z") = some "2024-01-01T00:00:00") ∧
    (normalise_timestamp exCtx.isoparse (some "garbage") = none) ∧
    (build_payload exCtx (exFile "x" "text/plain") "x").p_modified_at =
      normalise_timestamp exCtx.isoparse (exFile "x" "text/plain").modified_time := by
  refine ⟨?_, ?_, ?_⟩
  · exact (normalise_timestamp_total ⟨fun _ => ParseOutcome.ok "2024-01-01T00:00:00",
      exCtx.recordId⟩ (exFile "x" "text/plain") "x" (some "2024-01-01 00:00:00Z")).2.1
      "2024-01-01 00:00:00Z" "2024-01-01T00:00:00" rfl (by decide) rfl
  · exact (normalise_timestamp_total exCtx (exFile "x" "text/plain") "x"
      (some "garbage")).1.mpr (Or.inr (Or.inr ⟨"garbage", rfl, Or.inl rfl⟩))
  · exact (normalise_timestamp_total exCtx (exFile "x" "text/plain") "x" none).2.2
